import Mathlib

/-!
Shallow embedding of the Incremental Commit-History Metrics Engine
(code-evolution analyzer): counter adapters (`runScc`, `runCloc`),
the commit walker/merger (`analyzeCommits`), the language ranking
(`languageOrder`), the audio precomputation (`computeAudioData`),
the persisted-session compatibility gates (`loadExistingData`,
`applyMainGates`, `planWalk`), branch resolution (`resolveBranch`),
and the orchestration of `main` as an effect trace (`runMain`).

JavaScript numbers are modelled as `ℚ` (exact rationals); integer
counters as `ℕ`.  JS objects used as string-keyed maps are modelled as
insertion-ordered association lists `List (String × _)`.
`Math.round x` (half toward positive infinity) is `⌊x + 1/2⌋`.
`a.localeCompare(b)` is modelled as lexicographic comparison of the
character lists of the two names.
-/

namespace CodeEvolution

/-- Per-language statistics for one commit (`LanguageStats`).
`complexity`, `bytes` and `lines` are emitted only by the scc backend;
`none` models the field being absent from the JSON object. -/
structure LangStats where
  files : ℕ
  blank : ℕ
  comment : ℕ
  code : ℕ
  complexity : Option ℕ := none
  bytes : Option ℕ := none
  lines : Option ℕ := none
deriving DecidableEq

/-- Tool metadata stored per commit (the `analysis` object). -/
structure AnalysisMeta where
  elapsed_seconds : ℚ
  n_files : ℕ
  n_lines : ℕ
  files_per_second : ℚ
  lines_per_second : ℚ
  counter_tool : String
  counter_version : String
deriving DecidableEq

/-- Normalized output of one counter invocation:
`{ languages, analysis }`. -/
structure CounterData where
  languages : List (String × LangStats)
  analysis : AnalysisMeta
deriving DecidableEq

/-- Key lookup in a JS object modelled as an association list
(`obj[key]`, `undefined` becoming `none`). -/
def lookupLang (langs : List (String × LangStats)) (name : String) :
    Option LangStats :=
  (langs.find? (fun p => p.1 == name)).map (·.2)

/-- JS object assignment `obj[key] = v`: replaces the value in place if
the key exists, otherwise appends the key at the end. -/
def objInsert (langs : List (String × LangStats)) (name : String)
    (v : LangStats) : List (String × LangStats) :=
  if (langs.find? (fun p => p.1 == name)).isSome then
    langs.map (fun p => if p.1 == name then (p.1, v) else p)
  else
    langs ++ [(name, v)]

/-- `emptyAnalysis(tool)` from the counter adapter: the zeroed result
used when an invocation fails. -/
def emptyAnalysis (tool : String) : CounterData :=
  { languages := []
    analysis :=
      { elapsed_seconds := 0
        n_files := 0
        n_lines := 0
        files_per_second := 0
        lines_per_second := 0
        counter_tool := tool
        counter_version := "unknown" } }

/-- Outcome of one external tool invocation, as seen by the adapter:
`exec` with `ignoreError` returns the empty string on failure
(`emptyOutput`), `JSON.parse` throws on garbled non-empty output
(`garbled`), otherwise the parsed value is available (`ok`). -/
inductive ToolRun (α : Type) where
  | emptyOutput : ToolRun α
  | garbled : ToolRun α
  | ok : α → ToolRun α

/-- One entry of the scc JSON array.  Fields are optional to mirror the
`|| 0` defaulting applied by the adapter. -/
structure SccEntry where
  name : String
  count : Option ℕ := none
  blank : Option ℕ := none
  comment : Option ℕ := none
  code : Option ℕ := none
  complexity : Option ℕ := none
  bytes : Option ℕ := none
  lines : Option ℕ := none
deriving DecidableEq

/-- `runScc`: normalizes the scc JSON array.  `elapsedWall` is the
adapter's own wall-clock measurement (`Date.now()` before and after the
invocation); on a parse exception the catch handler returns
`emptyAnalysis('scc')` (elapsed 0). -/
def runScc (elapsedWall : ℚ) (run : ToolRun (List SccEntry)) : CounterData :=
  match run with
  | .garbled => emptyAnalysis "scc"
  | .emptyOutput =>
    { languages := []
      analysis :=
        { elapsed_seconds := elapsedWall
          n_files := 0
          n_lines := 0
          files_per_second := 0
          lines_per_second := 0
          counter_tool := "scc"
          counter_version := "unknown" } }
  | .ok entries =>
    let languages := entries.foldl
      (fun acc e => objInsert acc e.name
        { files := e.count.getD 0
          blank := e.blank.getD 0
          comment := e.comment.getD 0
          code := e.code.getD 0
          complexity := some (e.complexity.getD 0)
          bytes := some (e.bytes.getD 0)
          lines := some (e.lines.getD 0) }) []
    let totalFiles := (entries.map (fun e => e.count.getD 0)).sum
    let totalLines := (entries.map (fun e => e.lines.getD 0)).sum
    { languages := languages
      analysis :=
        { elapsed_seconds := elapsedWall
          n_files := totalFiles
          n_lines := totalLines
          files_per_second :=
            if 0 < elapsedWall then (totalFiles : ℚ) / elapsedWall else 0
          lines_per_second :=
            if 0 < elapsedWall then (totalLines : ℚ) / elapsedWall else 0
          counter_tool := "scc"
          counter_version := "3.x" } }

/-- The `header` object of the cloc JSON output (all fields optional,
mirroring the `|| 0` / `|| 'unknown'` defaulting). -/
structure ClocHeader where
  elapsed_seconds : Option ℚ := none
  n_files : Option ℕ := none
  n_lines : Option ℕ := none
  files_per_second : Option ℚ := none
  lines_per_second : Option ℚ := none
  cloc_version : Option String := none
deriving DecidableEq

/-- One per-language entry of the cloc JSON object. -/
structure ClocLang where
  nFiles : Option ℕ := none
  blank : Option ℕ := none
  comment : Option ℕ := none
  code : Option ℕ := none
deriving DecidableEq

/-- Parsed cloc JSON: the optional `header` plus the remaining keyed
entries in object order (possibly including the `SUM` key, which the
adapter skips). -/
structure ClocData where
  header : Option ClocHeader := none
  entries : List (String × ClocLang) := []
deriving DecidableEq

/-- `runCloc`: normalizes the cloc JSON object.  Note that the source
takes `elapsed_seconds` (and the other timing fields) from the tool's
own `header` block; the cloc adapter performs no wall-clock measurement
of its own. -/
def runCloc (run : ToolRun ClocData) : CounterData :=
  match run with
  | .garbled => emptyAnalysis "cloc"
  | .emptyOutput => emptyAnalysis "cloc"
  | .ok data =>
    let header := data.header.getD {}
    let analysis : AnalysisMeta :=
      { elapsed_seconds := header.elapsed_seconds.getD 0
        n_files := header.n_files.getD 0
        n_lines := header.n_lines.getD 0
        files_per_second := header.files_per_second.getD 0
        lines_per_second := header.lines_per_second.getD 0
        counter_tool := "cloc"
        counter_version := header.cloc_version.getD "unknown" }
    let languages := (data.entries.filter
        (fun p => p.1 != "header" && p.1 != "SUM")).foldl
      (fun acc p => objInsert acc p.1
        { files := p.2.nFiles.getD 0
          blank := p.2.blank.getD 0
          comment := p.2.comment.getD 0
          code := p.2.code.getD 0 }) []
    { languages := languages, analysis := analysis }

/-- One commit as parsed from the delimited git log line. -/
structure Commit where
  hash : String
  date : String
  message : String
deriving DecidableEq

/-- One analyzed commit (`CommitRecord`), with the precomputed totals. -/
structure CommitRecord where
  commit : String
  date : String
  message : String
  analysis : AnalysisMeta
  languages : List (String × LangStats)
  totalLines : ℕ
  totalFiles : ℕ
  totalBytes : ℕ
deriving DecidableEq

/-- Builds the record pushed by `analyzeCommits` for one commit: the
totals are the sums of `code`, `files` and `bytes || 0` over the
languages returned by the counter. -/
def mkRecord (c : Commit) (cd : CounterData) : CommitRecord :=
  { commit := c.hash
    date := c.date
    message := c.message
    analysis := cd.analysis
    languages := cd.languages
    totalLines := (cd.languages.map (fun p => p.2.code)).sum
    totalFiles := (cd.languages.map (fun p => p.2.files)).sum
    totalBytes := (cd.languages.map (fun p => p.2.bytes.getD 0)).sum }

/-- `allLanguages.add(lang)` on a JS `Set` modelled as an
insertion-ordered duplicate-free list. -/
def addLang (acc : List String) (l : String) : List String :=
  if l ∈ acc then acc else acc ++ [l]

/-- Adds every key of a language map to the accumulated language set. -/
def addLangs (acc : List String) (ls : List String) : List String :=
  ls.foldl addLang acc

/-- Lexicographic comparison of character lists; models
`a.localeCompare(b) <= 0` for the plain language names involved. -/
def lexLe : List Char → List Char → Bool
  | [], _ => true
  | _ :: _, [] => false
  | c :: cs, d :: ds => if c = d then lexLe cs ds else decide (c < d)

/-- A language's share of the code lines of the final commit:
`total > 0 ? (lang.code || 0) / total : 0`. -/
def langShare (finalLangs : List (String × LangStats)) (total : ℕ)
    (l : String) : ℚ :=
  if 0 < total then
    ((((lookupLang finalLangs l).map (·.code)).getD 0 : ℕ) : ℚ) / total
  else 0

/-- The sort comparator of `analyzeCommits`: descending by share of the
final commit's code lines, exact ties broken by ascending name. -/
def rankLE (finalLangs : List (String × LangStats)) (total : ℕ)
    (a b : String) : Prop :=
  langShare finalLangs total b < langShare finalLangs total a ∨
    (langShare finalLangs total a = langShare finalLangs total b ∧
      lexLe a.data b.data = true)

instance (finalLangs : List (String × LangStats)) (total : ℕ) :
    DecidableRel (rankLE finalLangs total) := fun a b => by
  unfold rankLE
  infer_instance

/-- The global language ordering: the accumulated language set sorted
with the comparator above (total, so independent of the sort
algorithm). -/
def languageOrder (allLangs : List String) (finalRec : CommitRecord) :
    List String :=
  let total := (finalRec.languages.map (fun p => p.2.code)).sum
  List.insertionSort (rankLE finalRec.languages total) allLangs

/-- The new records appended by one `analyzeCommits` run, in commit
order: the counter is invoked once per commit after its checkout. -/
def newRecordsOf (counter : Commit → CounterData) (commits : List Commit) :
    List CommitRecord :=
  commits.map (fun c => mkRecord c (counter c))

/-- `analyzeCommits`: appends newly analyzed records after the existing
ones, accumulates the language set (existing records first, then each
new commit), and computes the final language ordering from the last
record of the merged list.  Returns `(results, allLanguages)`;
an empty merged list yields `([], [])`. -/
def analyzeCommits (counter : Commit → CounterData)
    (existing : List CommitRecord) (commits : List Commit) :
    List CommitRecord × List String :=
  let results := existing ++ newRecordsOf counter commits
  let langs1 := existing.foldl
    (fun acc r => addLangs acc (r.languages.map Prod.fst)) []
  let allLangs := commits.foldl
    (fun acc c => addLangs acc (((counter c).languages).map Prod.fst)) langs1
  match results.getLast? with
  | none => ([], [])
  | some finalRec => (results, languageOrder allLangs finalRec)

/-! ### Audio precomputation (`computeAudioData`) -/

/-- `AUDIO_MAX_VOICES`: maximum number of languages given a voice. -/
def AUDIO_MAX_VOICES : ℕ := 16

/-- `AUDIO_DETUNE_MAX`: maximum pitch variation in cents. -/
def AUDIO_DETUNE_MAX : ℚ := 25

/-- The three sonified metrics. -/
inductive Metric where
  | lines
  | files
  | bytes
deriving DecidableEq

/-- The per-language value backing a metric (`metricKeys`):
`code`, `files`, or `bytes || 0`. -/
def metricValue (m : Metric) (s : LangStats) : ℕ :=
  match m with
  | .lines => s.code
  | .files => s.files
  | .bytes => s.bytes.getD 0

/-- A commit's per-metric total: the metric summed over its languages. -/
def commitTotal (m : Metric) (r : CommitRecord) : ℕ :=
  (r.languages.map (fun p => metricValue m p.2)).sum

/-- The session-wide minimum per-commit total for a metric
(the fold starting from `Infinity`; `0` for an empty session where the
value is never used). -/
def minTotal (m : Metric) (rs : List CommitRecord) : ℕ :=
  match rs.map (commitTotal m) with
  | [] => 0
  | t :: ts => ts.foldl min t

/-- The session-wide maximum per-commit total for a metric
(the fold starting from `0`). -/
def maxTotal (m : Metric) (rs : List CommitRecord) : ℕ :=
  (rs.map (commitTotal m)).foldl max 0

/-- `Math.round(q * 100) / 100` (gain rounding, 2 decimals). -/
def round2 (q : ℚ) : ℚ := ((⌊q * 100 + 1/2⌋ : ℤ) : ℚ) / 100

/-- `Math.round(q * 10) / 10` (detune rounding, 1 decimal). -/
def round1 (q : ℚ) : ℚ := ((⌊q * 10 + 1/2⌋ : ℤ) : ℚ) / 10

/-- The metric value a language contributes in a record:
`commit.languages[lang]?.[key] || 0`. -/
def langValue (m : Metric) (r : CommitRecord) (lang : String) : ℕ :=
  ((lookupLang r.languages lang).map (metricValue m)).getD 0

/-- The previous value `prevCommit?.languages[lang]?.[key] || 0`. -/
def prevLangValue (m : Metric) (prev : Option CommitRecord)
    (lang : String) : ℕ :=
  match prev with
  | none => 0
  | some p => langValue m p lang

/-- One loop iteration of the voice loop: skipped (`none`) when the
unrounded gain is `0`, otherwise the stored tuple
`(langIndex, round2 gain, round1 detune)`. -/
def voiceOf (m : Metric) (total : ℕ) (prev : Option CommitRecord)
    (r : CommitRecord) (p : ℕ × String) : Option (ℕ × ℚ × ℚ) :=
  let value := langValue m r p.2
  let prevValue := prevLangValue m prev p.2
  let gain : ℚ := if 0 < total then (value : ℚ) / total else 0
  if gain = 0 then none
  else
    let detune : ℚ :=
      if prev.isSome ∧ 0 < prevValue then
        max (-AUDIO_DETUNE_MAX)
          (min AUDIO_DETUNE_MAX
            ((((value : ℚ) - prevValue) / prevValue) * AUDIO_DETUNE_MAX))
      else if 0 < value ∧ prevValue = 0 then AUDIO_DETUNE_MAX * (1/2)
      else 0
    some (p.1, round2 gain, round1 detune)

/-- The active voices of one frame for one metric: the loop over
`v < min(allLanguages.length, 16)` with zero-gain languages omitted. -/
def encodeVoices (m : Metric) (allLangs : List String)
    (prev : Option CommitRecord) (r : CommitRecord) (total : ℕ) :
    List (ℕ × ℚ × ℚ) :=
  ((allLangs.take AUDIO_MAX_VOICES).enum).filterMap (voiceOf m total prev r)

/-- One metric's slot of a frame: the master intensity (normalized over
the session range, `1` in the degenerate `max <= min` case) and the
sparse voice list. -/
def encodeMetric (m : Metric) (allLangs : List String)
    (minT maxT : ℕ) (prev : Option CommitRecord) (r : CommitRecord) :
    ℚ × List (ℕ × ℚ × ℚ) :=
  let total := commitTotal m r
  let masterIntensity : ℚ :=
    if minT < maxT then
      round2 (((total : ℚ) - minT) / ((maxT : ℚ) - minT))
    else 1
  (masterIntensity, encodeVoices m allLangs prev r total)

/-- One audio frame (`frameData`): one slot per metric. -/
structure Frame where
  lines : ℚ × List (ℕ × ℚ × ℚ)
  files : ℚ × List (ℕ × ℚ × ℚ)
  bytes : ℚ × List (ℕ × ℚ × ℚ)
deriving DecidableEq

/-- Selects a frame's slot for a metric. -/
def Frame.forMetric (f : Frame) (m : Metric) : ℚ × List (ℕ × ℚ × ℚ) :=
  match m with
  | .lines => f.lines
  | .files => f.files
  | .bytes => f.bytes

/-- The frame of one commit, given the session-wide ranges and the
previous commit (`null` for the first). -/
def mkFrame (allLangs : List String) (rs : List CommitRecord)
    (prev : Option CommitRecord) (r : CommitRecord) : Frame :=
  { lines := encodeMetric .lines allLangs (minTotal .lines rs)
      (maxTotal .lines rs) prev r
    files := encodeMetric .files allLangs (minTotal .files rs)
      (maxTotal .files rs) prev r
    bytes := encodeMetric .bytes allLangs (minTotal .bytes rs)
      (maxTotal .bytes rs) prev r }

/-- The frame loop: each commit is encoded with its predecessor as
`prevCommit` (`results[i-1]`, `null` for `i = 0`). -/
def framesGo (allLangs : List String) (rsAll : List CommitRecord)
    (prev : Option CommitRecord) : List CommitRecord → List Frame
  | [] => []
  | r :: rest => mkFrame allLangs rsAll prev r :: framesGo allLangs rsAll (some r) rest

/-- `computeAudioData`: empty input yields `[]`; otherwise one frame per
commit, in order. -/
def computeAudioData (results : List CommitRecord)
    (allLangs : List String) : List Frame :=
  if results.isEmpty then []
  else framesGo allLangs results none results

/-! ### Persisted-session gates and the resume decision -/

/-- The persisted metadata fields consulted by the gates. -/
structure SessionMeta where
  repository_url : Option String := none
  counter_tool : Option String := none
  last_commit_hash : Option String := none
deriving DecidableEq

/-- A parsed persisted session (`data.json`); only the fields the gates
and the merge consult are modelled. -/
structure Session where
  schema_version : Option String := none
  metadata : SessionMeta := {}
  results : List CommitRecord := []
deriving DecidableEq

/-- The on-disk state of `data.json`: absent, unparseable (JSON.parse
throws), or parsed. -/
inductive DataFile where
  | missing
  | unparseable
  | parsed (s : Session)

/-- `loadExistingData`: absent or unparseable files, a falsy
`schema_version` (old v1.0 format) and a schema mismatch all yield
`null`; otherwise the parsed session is returned. -/
def loadExistingData (file : DataFile) (schemaVersion : String) :
    Option Session :=
  match file with
  | .missing => none
  | .unparseable => none
  | .parsed d =>
    match d.schema_version with
    | none => none
    | some s =>
      if s = "" then none
      else if s ≠ schemaVersion then none
      else some d

/-- The truthy-and-different test `meta?.field && field !== current`
used by the two metadata gates in `main`. -/
def gateMismatch (field : Option String) (current : String) : Bool :=
  field.getD "" != "" && field.getD "" != current

/-- The repository-url and counter-tool gates applied by `main` after a
successful load; a mismatch discards the session (sets it to `null`). -/
def applyMainGates (existing : Option Session)
    (repoUrl counterTool : String) : Option Session :=
  match existing with
  | none => none
  | some d =>
    if gateMismatch d.metadata.repository_url repoUrl then none
    else if gateMismatch d.metadata.counter_tool counterTool then none
    else some d

/-- The walk to perform: the exclusive resume point handed to the
commit enumeration, and the prior records the new ones are appended
after. -/
structure WalkPlan where
  afterCommit : Option String
  existingResults : List CommitRecord
deriving DecidableEq

/-- The resume decision of `main`: a truthy but non-existing resume
hash discards the session; a surviving session with a truthy hash
walks only commits after it and keeps its records, anything else walks
the full history with no prior records. -/
def planWalk (existing0 : Option Session) (commitHashKnown : String → Bool) :
    WalkPlan :=
  let existing :=
    match existing0 with
    | none => none
    | some d =>
      match d.metadata.last_commit_hash with
      | none => some d
      | some h =>
        if h ≠ "" ∧ ¬commitHashKnown h then none else some d
  match existing with
  | none => { afterCommit := none, existingResults := [] }
  | some d =>
    match d.metadata.last_commit_hash with
    | none => { afterCommit := none, existingResults := d.results }
    | some h =>
      if h ≠ "" then { afterCommit := some h, existingResults := d.results }
      else { afterCommit := none, existingResults := d.results }

/-- The complete load-gate-resume pipeline of `main` (with
`--force-full` skipping the load entirely). -/
def sessionPlan (file : DataFile) (schemaVersion repoUrl counterTool : String)
    (forceFull : Bool) (commitHashKnown : String → Bool) : WalkPlan :=
  let existing :=
    if forceFull then none
    else applyMainGates (loadExistingData file schemaVersion) repoUrl counterTool
  planWalk existing commitHashKnown

/-! ### Branch resolution (`getCommitHistory`) -/

/-- Tests whether the first character list is an initial segment of the
second. -/
def headMatches : List Char → List Char → Bool
  | [], _ => true
  | _ :: _, [] => false
  | a :: as, b :: bs => if a = b then headMatches as bs else false

/-- Whether the needle occurs contiguously anywhere in the haystack. -/
def subOccurs (needle : List Char) : List Char → Bool
  | [] => headMatches needle []
  | h :: hs => headMatches needle (h :: hs) || subOccurs needle hs

/-- JS `haystack.includes(needle)`: a substring test, used by the
source on the raw `git branch -r` output — so e.g. a listing containing
`origin/maintenance` makes `includes('origin/main')` true. -/
def strIncludes (haystack needle : String) : Bool :=
  subOccurs needle.data haystack.data

/-- What remains after the first occurrence of the needle, if any. -/
def subTailAfter (needle : List Char) : List Char → Option (List Char)
  | [] => if headMatches needle [] then some [] else none
  | h :: hs =>
    if headMatches needle (h :: hs) then some ((h :: hs).drop needle.length)
    else subTailAfter needle hs

/-- Extracts the branch name from the remote's symbolic default-branch
reference, as the unanchored regex match
`trim().match(/refs\x2fremotes\x2forigin\x2f(.+)/)` does: everything
after the first occurrence of `refs/remotes/origin/` in the trimmed
output (a single line in practice), provided it is non-empty;
otherwise no branch is extracted. -/
def stripOriginRef (s : String) : Option String :=
  let t := s.trim
  if t = "" then none
  else
    match subTailAfter "refs/remotes/origin/".data t.data with
    | some rest => if rest = [] then none else some (String.mk rest)
    | none => none

/-- The branch actually used by `getCommitHistory`, from the requested
branch, the raw `git branch -r` output, and the symbolic-ref output.
The fallback chain fires only when the requested branch is literally
`"main"` and the listing does not contain the substring `origin/main`:
then `master` is used if the substring `origin/master` occurs,
otherwise the symbolic default-branch reference is consulted (keeping
`"main"` when it yields nothing).  Any other requested branch is used
as-is, without existence check. -/
def resolveBranch (branch : String) (branches : String)
    (symRef : String) : String :=
  let hasMain := strIncludes branches "origin/main"
  let hasMaster := strIncludes branches "origin/master"
  if branch = "main" ∧ hasMain = false then
    if hasMaster then "master"
    else
      match stripOriginRef symRef with
      | some name => name
      | none => branch
  else branch

/-! ### The orchestration of `main` as an effect trace -/

/-- The externally visible write effects of one run. -/
inductive Event where
  | writeData
  | writeHtml
deriving DecidableEq

/-- The fallible stages of `main`'s try block, each modelled by its
outcome: clone, commit enumeration, the analysis walk (checkout plus
counter per commit), and HTML generation.  `runMain` mirrors the
control flow: any failure propagates immediately and the artifact
writes happen only after `analyzeCommits` and `createDataStructure`
(which computes the audio data) have completed; an incremental run
that finds no new commits returns early with no writes. -/
def runMain (plan : WalkPlan)
    (cloneRes : Except String Unit)
    (historyRes : Except String (List Commit))
    (analyzeRes : Except String (List CommitRecord × List String))
    (htmlRes : Except String String) :
    Except String Unit × List Event :=
  match cloneRes with
  | .error e => (.error e, [])
  | .ok _ =>
    match historyRes with
    | .error e => (.error e, [])
    | .ok commits =>
      if plan.afterCommit.isSome ∧ commits.isEmpty then (.ok (), [])
      else
        match analyzeRes with
        | .error e => (.error e, [])
        | .ok _ =>
          match htmlRes with
          | .error e => (.error e, [.writeData])
          | .ok _ => (.ok (), [.writeData, .writeHtml])

/-! ### Concrete inputs used in witnesses and counterexamples -/

/-- A cloc output whose header self-reports the given elapsed time and
lists no languages. -/
def clocOutputTimed (t : ℚ) : ClocData :=
  { header := some { elapsed_seconds := some t }
    entries := [] }

/-- A language-statistics record carrying only a file count and a line
count of code (the shape the cloc backend produces). -/
def statsOfCode (files code : ℕ) : LangStats :=
  { files := files, blank := 0, comment := 0, code := code }

/-- A commit record with the given languages, its totals precomputed as
`analyzeCommits` would store them. -/
def recordOfLangs (langs : List (String × LangStats)) : CommitRecord :=
  { commit := "c", date := "2024-01-01", message := "m"
    analysis := (emptyAnalysis "scc").analysis
    languages := langs
    totalLines := (langs.map (fun p => p.2.code)).sum
    totalFiles := (langs.map (fun p => p.2.files)).sum
    totalBytes := (langs.map (fun p => p.2.bytes.getD 0)).sum }

/-- The ranking example of the spec: a final commit with languages
`A: 100`, `B: 300`, `C: 0` and 400 code lines in total. -/
def finalABC : CommitRecord :=
  recordOfLangs [("A", statsOfCode 1 100), ("B", statsOfCode 1 300),
    ("C", statsOfCode 1 0)]

/-- Eight languages with one line of code each (equal shares `1/8`). -/
def rec8 : CommitRecord :=
  recordOfLangs [("A", statsOfCode 1 1), ("B", statsOfCode 1 1),
    ("C", statsOfCode 1 1), ("D", statsOfCode 1 1), ("E", statsOfCode 1 1),
    ("F", statsOfCode 1 1), ("G", statsOfCode 1 1), ("H", statsOfCode 1 1)]

/-- The language names of `rec8`, already in rank order. -/
def langs8 : List String := ["A", "B", "C", "D", "E", "F", "G", "H"]

/-- Twenty languages with five lines of code each (equal shares `1/20`,
four more languages than the 16-voice cap). -/
def rec20 : CommitRecord :=
  recordOfLangs [("A", statsOfCode 1 5), ("B", statsOfCode 1 5),
    ("C", statsOfCode 1 5), ("D", statsOfCode 1 5), ("E", statsOfCode 1 5),
    ("F", statsOfCode 1 5), ("G", statsOfCode 1 5), ("H", statsOfCode 1 5),
    ("I", statsOfCode 1 5), ("J", statsOfCode 1 5), ("K", statsOfCode 1 5),
    ("L", statsOfCode 1 5), ("M", statsOfCode 1 5), ("N", statsOfCode 1 5),
    ("O", statsOfCode 1 5), ("P", statsOfCode 1 5), ("Q", statsOfCode 1 5),
    ("R", statsOfCode 1 5), ("S", statsOfCode 1 5), ("T", statsOfCode 1 5)]

/-- The language names of `rec20`, already in rank order. -/
def langs20 : List String :=
  ["A", "B", "C", "D", "E", "F", "G", "H", "I", "J", "K", "L", "M", "N",
   "O", "P", "Q", "R", "S", "T"]

/-- Two languages: `B` with 999 code lines and `A` with one, so `A`'s
share `0.001` rounds to a stored gain of `0.00`. -/
def recAB : CommitRecord :=
  recordOfLangs [("B", statsOfCode 1 999), ("A", statsOfCode 1 1)]

/-- A single language with five lines of code, used as a witness. -/
def recW : CommitRecord := recordOfLangs [("A", statsOfCode 1 5)]

/-! ### General facts about `analyzeCommits` -/

/-- The merged result list is always the existing records followed by
the newly analyzed ones (also in the empty case, where both sides are
`[]`). -/
theorem analyzeCommits_fst (counter : Commit → CounterData)
    (existing : List CommitRecord) (commits : List Commit) :
    (analyzeCommits counter existing commits).1 =
      existing ++ newRecordsOf counter commits := by
  simp only [analyzeCommits]
  cases h : (existing ++ newRecordsOf counter commits).getLast? with
  | none =>
    rw [List.getLast?_eq_none_iff] at h
    simp [h]
  | some fin => rfl

/-- Re-running the analysis with the records of a first pass as the
existing session is the same as analyzing all commits in one pass:
both build the same merged list, the same accumulated language set in
the same first-occurrence order, and hence the same ordering. -/
theorem analyzeCommits_resume (counter : Commit → CounterData)
    (cs₁ cs₂ : List Commit) :
    analyzeCommits counter (newRecordsOf counter cs₁) cs₂ =
      analyzeCommits counter [] (cs₁ ++ cs₂) := by
  simp only [analyzeCommits, newRecordsOf, List.map_append,
    List.foldl_append, List.foldl_map, List.foldl_nil, mkRecord,
    List.nil_append]

/-- C7: analyzing a repository with zero commits (no prior session,
empty commit list) succeeds and yields empty `results`, empty
`allLanguages`, and empty `audioData`, for every counter backend. -/
theorem empty_repo_yields_empty :
    ∀ (counter : Commit → CounterData) (langs : List String),
      analyzeCommits counter [] [] = ([], []) ∧
      computeAudioData [] langs = [] := by
  intro counter langs
  exact ⟨rfl, rfl⟩

/-- C2: for a deterministic per-commit counter, analyzing `cs₁ ++ cs₂`
in one full pass equals analyzing `cs₁`, persisting, and resuming with
`cs₂`: the final `results`, `allLanguages` and `audioData` coincide,
and the resumed result list is the prior records (untouched, as a
prefix) followed by the new ones. -/
theorem incremental_equivalence :
    ∀ (counter : Commit → CounterData) (cs₁ cs₂ : List Commit),
      analyzeCommits counter (analyzeCommits counter [] cs₁).1 cs₂ =
        analyzeCommits counter [] (cs₁ ++ cs₂) ∧
      (analyzeCommits counter (analyzeCommits counter [] cs₁).1 cs₂).1 =
        (analyzeCommits counter [] cs₁).1 ++ newRecordsOf counter cs₂ ∧
      computeAudioData
          (analyzeCommits counter (analyzeCommits counter [] cs₁).1 cs₂).1
          (analyzeCommits counter (analyzeCommits counter [] cs₁).1 cs₂).2 =
        computeAudioData (analyzeCommits counter [] (cs₁ ++ cs₂)).1
          (analyzeCommits counter [] (cs₁ ++ cs₂)).2 := by
  intro counter cs₁ cs₂
  have h1 : (analyzeCommits counter [] cs₁).1 = newRecordsOf counter cs₁ := by
    rw [analyzeCommits_fst, List.nil_append]
  have h2 : analyzeCommits counter (analyzeCommits counter [] cs₁).1 cs₂ =
      analyzeCommits counter [] (cs₁ ++ cs₂) := by
    rw [h1, analyzeCommits_resume]
  refine ⟨h2, ?_, by rw [h2]⟩
  rw [analyzeCommits_fst]

/-- C1: every record newly produced by `analyzeCommits` (the part of
the merged list after the existing records), under any counter
behavior including failed or empty runs, stores as `totalLines`,
`totalFiles` and `totalBytes` exactly the sums of `code`, `files` and
`bytes` (absent `bytes` counting 0) over its languages. -/
theorem totals_invariant (counter : Commit → CounterData)
    (existing : List CommitRecord) (commits : List Commit)
    (r : CommitRecord)
    (hr : r ∈ (analyzeCommits counter existing commits).1.drop existing.length) :
    r.totalLines = (r.languages.map (fun p => p.2.code)).sum ∧
    r.totalFiles = (r.languages.map (fun p => p.2.files)).sum ∧
    r.totalBytes = (r.languages.map (fun p => p.2.bytes.getD 0)).sum := by
  rw [analyzeCommits_fst, List.drop_left] at hr
  rw [newRecordsOf] at hr
  obtain ⟨c, _, rfl⟩ := List.mem_map.mp hr
  exact ⟨rfl, rfl, rfl⟩

/-- Witness for C1 at a concrete input: a single commit whose counter
run failed (garbled cloc output), so the record has no languages and
zero totals. -/
theorem totals_invariant_witness :
    mkRecord ⟨"h0", "2024-01-01", "init"⟩ (runCloc .garbled) ∈
      (analyzeCommits (fun _ => runCloc .garbled) []
        [⟨"h0", "2024-01-01", "init"⟩]).1.drop 0 ∧
    ((mkRecord ⟨"h0", "2024-01-01", "init"⟩ (runCloc .garbled)).totalLines =
      ((mkRecord ⟨"h0", "2024-01-01", "init"⟩
        (runCloc .garbled)).languages.map (fun p => p.2.code)).sum ∧
    (mkRecord ⟨"h0", "2024-01-01", "init"⟩ (runCloc .garbled)).totalFiles =
      ((mkRecord ⟨"h0", "2024-01-01", "init"⟩
        (runCloc .garbled)).languages.map (fun p => p.2.files)).sum ∧
    (mkRecord ⟨"h0", "2024-01-01", "init"⟩ (runCloc .garbled)).totalBytes =
      ((mkRecord ⟨"h0", "2024-01-01", "init"⟩
        (runCloc .garbled)).languages.map (fun p => p.2.bytes.getD 0)).sum) :=
  have hmem : mkRecord ⟨"h0", "2024-01-01", "init"⟩ (runCloc .garbled) ∈
      (analyzeCommits (fun _ => runCloc .garbled) []
        [⟨"h0", "2024-01-01", "init"⟩]).1.drop
        ([] : List CommitRecord).length := by
    rw [analyzeCommits_fst]
    simp [newRecordsOf]
  ⟨hmem, totals_invariant (fun _ => runCloc .garbled) [] _ _ hmem⟩

/-- C8 counterexample: the cloc adapter copies `elapsed_seconds` from
the tool's own self-reported `header` block — two runs differing only
in the header's timing value record exactly those self-reported
timings, so the recorded value is not an adapter-side wall-clock
measurement. -/
theorem elapsed_from_header_counterexample :
    (runCloc (.ok (clocOutputTimed 42))).analysis.elapsed_seconds = 42 ∧
    (runCloc (.ok (clocOutputTimed 7))).analysis.elapsed_seconds = 7 ∧
    (42 : ℚ) ≠ 7 := by
  refine ⟨rfl, rfl, by norm_num⟩

/-- C8 amended: only the scc adapter measures elapsed time itself
(wall-clock around the invocation, recorded on success and on empty
output; 0 when parsing throws), while the cloc adapter takes
`elapsed_seconds` from the tool's self-reported header, defaulting
to 0. -/
theorem elapsed_seconds_provenance :
    ∀ (w : ℚ) (entries : List SccEntry) (d : ClocData),
      (runScc w (.ok entries)).analysis.elapsed_seconds = w ∧
      (runScc w .emptyOutput).analysis.elapsed_seconds = w ∧
      (runScc w .garbled).analysis.elapsed_seconds = 0 ∧
      (runCloc (.ok d)).analysis.elapsed_seconds =
        (d.header.getD {}).elapsed_seconds.getD 0 ∧
      (runCloc .emptyOutput).analysis.elapsed_seconds = 0 ∧
      (runCloc .garbled).analysis.elapsed_seconds = 0 := by
  intro w entries d
  exact ⟨rfl, rfl, rfl, rfl, rfl, rfl⟩

/-- C9 counterexample: the fallback chain is not the claimed
existence-driven resolution.  First, it never applies to requested
branches other than `"main"`: with requested branch `"develop"`, a
listing holding only `origin/master`, and no `origin/develop`, the
claim mandates `"master"`, but the code uses `"develop"` unchanged.
Second, even for `"main"` the "exists" test is a substring test on the
raw listing: with only `origin/maintenance` listed (and the symbolic
default-branch reference pointing at it), no remote `main` branch
exists and the claim mandates `"maintenance"`, but
`includes('origin/main')` is true, so the code keeps `"main"`. -/
theorem branch_fallback_counterexample :
    resolveBranch "develop" "  origin/master" "" = "develop" ∧
    strIncludes "  origin/master" "origin/develop" = false ∧
    ("develop" : String) ≠ "master" ∧
    resolveBranch "main" "  origin/maintenance"
      "refs/remotes/origin/maintenance" = "main" ∧
    strIncludes "  origin/maintenance" "origin/main" = true ∧
    ("main" : String) ≠ "maintenance" := by
  refine ⟨rfl, by decide, by decide, by decide, by decide, by decide⟩

/-- C9 amended: the three-step fallback fires only when the requested
branch is literally `"main"` and the raw branch listing does not
contain the substring `origin/main` (a substring test, not an
existence check: `origin/maintenance` counts); every other requested
branch is used as-is (without existence check).  In the fallback,
`master` is used when the substring `origin/master` occurs, otherwise
the symbolic default-branch reference target (keeping `"main"` when
nothing can be extracted from it). -/
theorem branch_resolution_characterization :
    ∀ (branch : String) (branches : String) (symRef : String),
      (branch ≠ "main" → resolveBranch branch branches symRef = branch) ∧
      (strIncludes branches "origin/main" = true →
        resolveBranch branch branches symRef = branch) ∧
      (branch = "main" → strIncludes branches "origin/main" = false →
        strIncludes branches "origin/master" = true →
        resolveBranch branch branches symRef = "master") ∧
      (branch = "main" → strIncludes branches "origin/main" = false →
        strIncludes branches "origin/master" = false →
        resolveBranch branch branches symRef =
          (stripOriginRef symRef).getD branch) := by
  intro branch branches symRef
  refine ⟨?_, ?_, ?_, ?_⟩
  · intro h
    rw [resolveBranch, if_neg]
    rintro ⟨h1, -⟩
    exact h h1
  · intro h
    rw [resolveBranch, if_neg]
    rintro ⟨-, h2⟩
    rw [h] at h2
    exact Bool.noConfusion h2
  · intro h1 h2 h3
    rw [resolveBranch, if_pos ⟨h1, h2⟩, if_pos h3]
  · intro h1 h2 h3
    rw [resolveBranch, if_pos ⟨h1, h2⟩, if_neg (by rw [h3]; exact Bool.false_ne_true)]
    cases h : stripOriginRef symRef with
    | none => simp [h]
    | some name => simp [h]

/-- Witness for C9's amended characterization: requested `"main"` with
a listing holding only `origin/master` resolves to `"master"`. -/
theorem branch_resolution_characterization_witness :
    ("main" : String) = "main" ∧
    strIncludes "  origin/master" "origin/main" = false ∧
    strIncludes "  origin/master" "origin/master" = true ∧
    resolveBranch "main" "  origin/master" "" = "master" :=
  ⟨rfl, by decide, by decide,
    (branch_resolution_characterization "main" "  origin/master" "").2.2.1
      rfl (by decide) (by decide)⟩

/-- C10: `runMain` writes no artifact when any walk stage fails — a
clone failure, a commit-enumeration failure, or a failure inside the
analysis loop each propagate the error with an empty write trace — and
any write at all requires the analysis stage to have completed
successfully. -/
theorem no_artifacts_on_walk_failure
    (plan : WalkPlan) (cloneRes : Except String Unit)
    (historyRes : Except String (List Commit))
    (analyzeRes : Except String (List CommitRecord × List String))
    (htmlRes : Except String String) :
    (∀ e, cloneRes = .error e →
      runMain plan cloneRes historyRes analyzeRes htmlRes = (.error e, [])) ∧
    (∀ e, cloneRes = .ok () → historyRes = .error e →
      runMain plan cloneRes historyRes analyzeRes htmlRes = (.error e, [])) ∧
    (∀ e commits, cloneRes = .ok () → historyRes = .ok commits →
      ¬(plan.afterCommit.isSome ∧ commits.isEmpty) →
      analyzeRes = .error e →
      runMain plan cloneRes historyRes analyzeRes htmlRes = (.error e, [])) ∧
    ((Event.writeData ∈ (runMain plan cloneRes historyRes analyzeRes htmlRes).2 ∨
      Event.writeHtml ∈ (runMain plan cloneRes historyRes analyzeRes htmlRes).2) →
      ∃ res, analyzeRes = .ok res) := by
  refine ⟨?_, ?_, ?_, ?_⟩
  · rintro e rfl
    rfl
  · rintro e rfl rfl
    rfl
  · rintro e commits rfl rfl hne rfl
    simp only [runMain, if_neg hne]
  · intro hmem
    cases cloneRes with
    | error e => simp [runMain] at hmem
    | ok u =>
      cases historyRes with
      | error e => simp [runMain] at hmem
      | ok commits =>
        cases hanl : analyzeRes with
        | error e =>
          by_cases hud : plan.afterCommit.isSome = true ∧ commits = []
          · simp [runMain, hud] at hmem
          · simp [runMain, hud, hanl] at hmem
        | ok res => exact ⟨res, rfl⟩

/-- Witness for C10: a concrete clone failure produces the error with
an empty write trace. -/
theorem no_artifacts_on_walk_failure_witness :
    (Except.error "clone failed" : Except String Unit) = .error "clone failed" ∧
    runMain { afterCommit := none, existingResults := [] }
      (.error "clone failed") (.ok []) (.ok ([], [])) (.ok "") =
      (.error "clone failed", []) :=
  ⟨rfl,
    (no_artifacts_on_walk_failure { afterCommit := none, existingResults := [] }
      (.error "clone failed") (.ok []) (.ok ([], [])) (.ok "")).1
      "clone failed" rfl⟩

/-- A successful load of a parsed file returns that very session. -/
theorem loadExistingData_parsed_eq (d : Session) (sv : String) (x : Session)
    (h : loadExistingData (.parsed d) sv = some x) : x = d := by
  rw [loadExistingData] at h
  split at h
  · exact Option.noConfusion h
  · split_ifs at h
    exact (Option.some_inj.mp h).symm

/-- C5: a persisted session failing any compatibility gate — schema
version not exactly the current one, a truthy but different
`repository_url`, a truthy but different `counter_tool` — or an
unparseable file makes the run behave exactly as if no persisted
session existed: same walk plan as for a missing file, full history
walk (`afterCommit = none`), no retained prior records (so the merged
session is just the new results), and no error (the pipeline is a
total function). -/
theorem gate_failure_is_full_walk
    (file : DataFile) (sv repoUrl counterTool : String)
    (ce : String → Bool)
    (hfail : file = .unparseable ∨
      ∃ d, file = .parsed d ∧
        (d.schema_version ≠ some sv ∨
         gateMismatch d.metadata.repository_url repoUrl = true ∨
         gateMismatch d.metadata.counter_tool counterTool = true)) :
    sessionPlan file sv repoUrl counterTool false ce =
      sessionPlan .missing sv repoUrl counterTool false ce ∧
    sessionPlan file sv repoUrl counterTool false ce =
      { afterCommit := none, existingResults := [] } ∧
    ∀ (counter : Commit → CounterData) (commits : List Commit),
      (analyzeCommits counter
        (sessionPlan file sv repoUrl counterTool false ce).existingResults
        commits).1 = newRecordsOf counter commits := by
  have hnone : applyMainGates (loadExistingData file sv) repoUrl counterTool
      = none := by
    rcases hfail with rfl | ⟨d, rfl, hd⟩
    · rfl
    · cases hload : loadExistingData (.parsed d) sv with
      | none => rfl
      | some x =>
        have hx : x = d := loadExistingData_parsed_eq d sv x hload
        subst hx
        rcases hd with hschema | hrepo | htool
        · exfalso
          rw [loadExistingData] at hload
          split at hload
          · exact Option.noConfusion hload
          · rename_i s hs
            split_ifs at hload with h1 h2
            exact hschema (hs.trans (congrArg some (not_not.mp h2)))
        · rw [applyMainGates, if_pos hrepo]
        · rw [applyMainGates]
          by_cases hrepo : gateMismatch x.metadata.repository_url repoUrl = true
          · rw [if_pos hrepo]
          · rw [if_neg hrepo, if_pos htool]

  have hplan : sessionPlan file sv repoUrl counterTool false ce =
      { afterCommit := none, existingResults := [] } := by
    rw [sessionPlan, if_neg (by exact Bool.false_ne_true ∘ id)]
    · rw [hnone]; rfl
  refine ⟨?_, hplan, ?_⟩
  · rw [hplan]; rfl
  · intro counter commits
    rw [hplan, analyzeCommits_fst, List.nil_append]

/-- Witness for C5: a persisted session with schema version `"1.0"`
loaded by an engine at schema version `"2.2"`. -/
theorem gate_failure_is_full_walk_witness :
    ((DataFile.parsed { schema_version := some "1.0" }) = .unparseable ∨
      ∃ d, (DataFile.parsed { schema_version := some "1.0" }) = .parsed d ∧
        (d.schema_version ≠ some "2.2" ∨
         gateMismatch d.metadata.repository_url "https://example.org/r.git" = true ∨
         gateMismatch d.metadata.counter_tool "scc" = true)) ∧
    sessionPlan (.parsed { schema_version := some "1.0" }) "2.2"
        "https://example.org/r.git" "scc" false (fun _ => true) =
      sessionPlan .missing "2.2" "https://example.org/r.git" "scc" false
        (fun _ => true) ∧
    sessionPlan (.parsed { schema_version := some "1.0" }) "2.2"
        "https://example.org/r.git" "scc" false (fun _ => true) =
      { afterCommit := none, existingResults := [] } :=
  have hyp : (DataFile.parsed { schema_version := some "1.0" }) = .unparseable ∨
      ∃ d, (DataFile.parsed { schema_version := some "1.0" }) = .parsed d ∧
        (d.schema_version ≠ some "2.2" ∨
         gateMismatch d.metadata.repository_url "https://example.org/r.git" = true ∨
         gateMismatch d.metadata.counter_tool "scc" = true) :=
    Or.inr ⟨{ schema_version := some "1.0" }, rfl, Or.inl (by decide)⟩
  have h := gate_failure_is_full_walk (.parsed { schema_version := some "1.0" })
    "2.2" "https://example.org/r.git" "scc" (fun _ => true) hyp
  ⟨hyp, h.1, h.2.1⟩

/-! ### The ranking comparator is a total order -/

/-- `lexLe` is total. -/
theorem lexLe_total : ∀ (as bs : List Char),
    lexLe as bs = true ∨ lexLe bs as = true
  | [], _ => Or.inl rfl
  | _ :: _, [] => Or.inr rfl
  | c :: cs, d :: ds => by
    by_cases hcd : c = d
    · subst hcd
      simp only [lexLe, if_pos rfl]
      exact lexLe_total cs ds
    · rcases lt_trichotomy c d with h | h | h
      · exact Or.inl (by simp [lexLe, hcd, h])
      · exact absurd h hcd
      · exact Or.inr (by simp [lexLe, Ne.symm hcd, h])

/-- `lexLe` is transitive. -/
theorem lexLe_trans : ∀ (as bs cs : List Char),
    lexLe as bs = true → lexLe bs cs = true → lexLe as cs = true
  | [], _, _, _, _ => rfl
  | _ :: _, [], _, h1, _ => by simp [lexLe] at h1
  | _ :: _, _ :: _, [], _, h2 => by simp [lexLe] at h2
  | a :: as, b :: bs, c :: cs, h1, h2 => by
    by_cases hab : a = b
    · subst hab
      rw [lexLe, if_pos rfl] at h1
      by_cases hac : a = c
      · subst hac
        rw [lexLe, if_pos rfl] at h2
        rw [lexLe, if_pos rfl]
        exact lexLe_trans as bs cs h1 h2
      · rw [lexLe, if_neg hac] at h2
        rw [lexLe, if_neg hac]
        exact h2
    · rw [lexLe, if_neg hab] at h1
      have hab' : a < b := of_decide_eq_true h1
      by_cases hbc : b = c
      · subst hbc
        rw [lexLe, if_neg hab]
        exact h1
      · rw [lexLe, if_neg hbc] at h2
        have hbc' : b < c := of_decide_eq_true h2
        have hac' : a < c := lt_trans hab' hbc'
        rw [lexLe, if_neg (ne_of_lt hac')]
        exact decide_eq_true hac'

instance (finalLangs : List (String × LangStats)) (total : ℕ) :
    IsTotal String (rankLE finalLangs total) := by
  constructor
  intro a b
  rcases lt_trichotomy (langShare finalLangs total a)
    (langShare finalLangs total b) with h | h | h
  · exact Or.inr (Or.inl h)
  · rcases lexLe_total a.data b.data with hl | hl
    · exact Or.inl (Or.inr ⟨h, hl⟩)
    · exact Or.inr (Or.inr ⟨h.symm, hl⟩)
  · exact Or.inl (Or.inl h)

instance (finalLangs : List (String × LangStats)) (total : ℕ) :
    IsTrans String (rankLE finalLangs total) := by
  constructor
  intro a b c hab hbc
  rcases hab with h1 | ⟨h1, hl1⟩ <;> rcases hbc with h2 | ⟨h2, hl2⟩
  · exact Or.inl (lt_trans h2 h1)
  · exact Or.inl (h2 ▸ h1)
  · exact Or.inl (by rw [h1]; exact h2)
  · exact Or.inr ⟨h1.trans h2, lexLe_trans _ _ _ hl1 hl2⟩

/-- C6: `languageOrder` returns exactly the observed language set (a
permutation of it) sorted by the comparator "descending share of the
final commit's code lines, exact ties by ascending name"; on the
spec's example (`A: 100`, `B: 300`, `C: 0`, 400 total code lines) the
ordering is `[B, A, C]`. -/
theorem ranking_deterministic :
    ∀ (allLangs : List String) (finalRec : CommitRecord),
      List.Perm (languageOrder allLangs finalRec) allLangs ∧
      List.Sorted
        (rankLE finalRec.languages
          ((finalRec.languages.map (fun p => p.2.code)).sum))
        (languageOrder allLangs finalRec) ∧
      languageOrder ["A", "B", "C"] finalABC = ["B", "A", "C"] := by
  intro allLangs finalRec
  refine ⟨List.perm_insertionSort _ _, List.sorted_insertionSort _ _, ?_⟩
  have hstep : languageOrder ["A", "B", "C"] finalABC =
      List.insertionSort (rankLE finalABC.languages 400) ["A", "B", "C"] := rfl
  have eAB : ("A" == "B") = false := by decide
  have eAC : ("A" == "C") = false := by decide
  have eBC : ("B" == "C") = false := by decide
  have hBC : rankLE finalABC.languages 400 "B" "C" :=
    Or.inl (by norm_num [langShare, lookupLang, finalABC, recordOfLangs,
      statsOfCode, List.find?, eAB, eAC, eBC])
  have hAC : rankLE finalABC.languages 400 "A" "C" :=
    Or.inl (by norm_num [langShare, lookupLang, finalABC, recordOfLangs,
      statsOfCode, List.find?, eAB, eAC, eBC])
  have hAB : ¬rankLE finalABC.languages 400 "A" "B" := by
    rintro (h | ⟨h, -⟩) <;>
      norm_num [langShare, lookupLang, finalABC, recordOfLangs,
        statsOfCode, List.find?, eAB, eAC, eBC] at h
  rw [hstep]
  simp [List.insertionSort, List.orderedInsert, hBC, hAC, hAB]

/-! ### Bounds of the audio encoding -/

/-- A fold of `min` never exceeds its seed. -/
theorem foldl_min_le_self (ts : List ℕ) (a : ℕ) : ts.foldl min a ≤ a := by
  induction ts generalizing a with
  | nil => exact le_refl a
  | cons t ts ih => exact le_trans (ih (min a t)) (min_le_left a t)

/-- A fold of `min` never exceeds a member. -/
theorem foldl_min_le_mem (ts : List ℕ) (a x : ℕ) (h : x ∈ ts) :
    ts.foldl min a ≤ x := by
  induction ts generalizing a with
  | nil => cases h
  | cons t ts ih =>
    rcases List.mem_cons.mp h with rfl | hx
    · exact le_trans (foldl_min_le_self ts (min a x)) (min_le_right a x)
    · exact ih (min a t) hx

/-- A fold of `max` dominates its seed. -/
theorem le_foldl_max_self (ts : List ℕ) (a : ℕ) : a ≤ ts.foldl max a := by
  induction ts generalizing a with
  | nil => exact le_refl a
  | cons t ts ih => exact le_trans (le_max_left a t) (ih (max a t))

/-- A fold of `max` dominates every member. -/
theorem le_foldl_max (ts : List ℕ) (a x : ℕ) (h : x ∈ ts) :
    x ≤ ts.foldl max a := by
  induction ts generalizing a with
  | nil => cases h
  | cons t ts ih =>
    rcases List.mem_cons.mp h with rfl | hx
    · exact le_trans (le_max_right a x) (le_foldl_max_self ts (max a x))
    · exact ih (max a t) hx

/-- The session-wide minimum total is a lower bound for every commit. -/
theorem minTotal_le (m : Metric) {rs : List CommitRecord} {r : CommitRecord}
    (h : r ∈ rs) : minTotal m rs ≤ commitTotal m r := by
  cases rs with
  | nil => cases h
  | cons r0 rs' =>
    rw [minTotal, List.map_cons]
    rcases List.mem_cons.mp h with rfl | hx
    · exact foldl_min_le_self _ _
    · exact foldl_min_le_mem _ _ _ (List.mem_map_of_mem _ hx)

/-- The session-wide maximum total is an upper bound for every commit. -/
theorem le_maxTotal (m : Metric) {rs : List CommitRecord} {r : CommitRecord}
    (h : r ∈ rs) : commitTotal m r ≤ maxTotal m rs :=
  le_foldl_max _ _ _ (List.mem_map_of_mem _ h)

/-- Rounding to two decimals keeps nonnegative values nonnegative. -/
theorem round2_nonneg (q : ℚ) (h : 0 ≤ q) : 0 ≤ round2 q := by
  rw [round2]
  have h1 : (0 : ℤ) ≤ ⌊q * 100 + 1/2⌋ := Int.le_floor.mpr (by push_cast; linarith)
  have h2 : (0 : ℚ) ≤ (⌊q * 100 + 1/2⌋ : ℤ) := by exact_mod_cast h1
  exact div_nonneg h2 (by norm_num)

/-- Rounding to two decimals keeps values at most one at most one. -/
theorem round2_le_one (q : ℚ) (h : q ≤ 1) : round2 q ≤ 1 := by
  rw [round2]
  have h1 : ⌊q * 100 + 1/2⌋ ≤ ⌊(100 : ℚ) + 1/2⌋ :=
    Int.floor_le_floor (by linarith)
  have h2 : (⌊(100 : ℚ) + 1/2⌋ : ℤ) = 100 := by norm_num
  rw [h2] at h1
  rw [div_le_one (by norm_num)]
  exact_mod_cast h1

/-- Rounding to one decimal keeps values within `[-25, 25]`. -/
theorem round1_bounds (q : ℚ) (hlo : -25 ≤ q) (hhi : q ≤ 25) :
    -25 ≤ round1 q ∧ round1 q ≤ 25 := by
  rw [round1]
  constructor
  · have h1 : (-250 : ℤ) ≤ ⌊q * 10 + 1/2⌋ :=
      Int.le_floor.mpr (by push_cast; linarith)
    have h2 : (-250 : ℚ) ≤ (⌊q * 10 + 1/2⌋ : ℤ) := by exact_mod_cast h1
    linarith
  · have h1 : ⌊q * 10 + 1/2⌋ ≤ ⌊(250 : ℚ) + 1/2⌋ :=
      Int.floor_le_floor (by linarith)
    have h2 : (⌊(250 : ℚ) + 1/2⌋ : ℤ) = 250 := by norm_num
    rw [h2] at h1
    have h3 : ((⌊q * 10 + 1/2⌋ : ℤ) : ℚ) ≤ 250 := by exact_mod_cast h1
    linarith

/-- A language's looked-up metric value never exceeds the commit's
total for that metric. -/
theorem langValue_le_commitTotal (m : Metric) (r : CommitRecord)
    (lang : String) : langValue m r lang ≤ commitTotal m r := by
  rw [langValue, lookupLang]
  cases hf : r.languages.find? (fun p => p.1 == lang) with
  | none => exact Nat.zero_le _
  | some p =>
    have hp : p ∈ r.languages := List.mem_of_find?_eq_some hf
    exact List.le_sum_of_mem (List.mem_map_of_mem _ hp)

/-- The tuple stored for a voice has its gain in `[0, 1]` and its
detune in `[-25, 25]`. -/
theorem voiceOf_bounds (m : Metric) (total : ℕ) (prev : Option CommitRecord)
    (r : CommitRecord) (p : ℕ × String) (v : ℕ × ℚ × ℚ)
    (h : voiceOf m total prev r p = some v)
    (hv : langValue m r p.2 ≤ total) :
    0 ≤ v.2.1 ∧ v.2.1 ≤ 1 ∧ -25 ≤ v.2.2 ∧ v.2.2 ≤ 25 := by
  rw [voiceOf] at h
  set value := langValue m r p.2 with hval
  set prevValue := prevLangValue m prev p.2 with hprev
  by_cases htot : 0 < total
  · rw [if_pos htot] at h
    by_cases hg : ((value : ℚ) / total = 0)
    · rw [if_pos hg] at h
      exact Option.noConfusion h
    · rw [if_neg hg] at h
      have hv2 := Option.some_inj.mp h
      subst hv2
      have hgain0 : (0 : ℚ) ≤ (value : ℚ) / total :=
        div_nonneg (Nat.cast_nonneg value) (Nat.cast_nonneg total)
      have hgain1 : (value : ℚ) / total ≤ 1 := by
        rw [div_le_one (by exact_mod_cast htot)]
        exact_mod_cast hv
      refine ⟨round2_nonneg _ hgain0, round2_le_one _ hgain1, ?_⟩
      refine round1_bounds _ ?_ ?_
      · split_ifs with h1 h2
        · exact le_max_left _ _
        · rw [AUDIO_DETUNE_MAX]; norm_num
        · norm_num
      · split_ifs with h1 h2
        · exact max_le (by rw [AUDIO_DETUNE_MAX]; norm_num) (min_le_left _ _)
        · rw [AUDIO_DETUNE_MAX]; norm_num
        · norm_num
  · rw [if_neg htot, if_pos rfl] at h
    exact Option.noConfusion h

/-- `mkFrame` dispatches each metric to `encodeMetric` with that
metric's global range. -/
theorem mkFrame_forMetric (allLangs : List String) (rs : List CommitRecord)
    (prev : Option CommitRecord) (r : CommitRecord) (m : Metric) :
    (mkFrame allLangs rs prev r).forMetric m =
      encodeMetric m allLangs (minTotal m rs) (maxTotal m rs) prev r := by
  cases m <;> rfl

/-- Every frame built by the frame loop is `mkFrame` of a commit of the
processed list. -/
theorem framesGo_mem (allLangs : List String) (rsAll : List CommitRecord)
    (prev : Option CommitRecord) (l : List CommitRecord) (f : Frame)
    (h : f ∈ framesGo allLangs rsAll prev l) :
    ∃ prev' r, r ∈ l ∧ f = mkFrame allLangs rsAll prev' r := by
  induction l generalizing prev with
  | nil => cases h
  | cons r0 rest ih =>
    rcases List.mem_cons.mp h with rfl | hx
    · exact ⟨prev, r0, List.mem_cons_self r0 rest, rfl⟩
    · obtain ⟨prev', r, hr, hf⟩ := ih (some r0) hx
      exact ⟨prev', r, List.mem_cons_of_mem r0 hr, hf⟩

/-- The master intensity lies in `[0, 1]` whenever the commit's total
lies inside the global range. -/
theorem encodeMetric_intensity_bounds (m : Metric) (allLangs : List String)
    (minT maxT : ℕ) (prev : Option CommitRecord) (r : CommitRecord)
    (h1 : minT ≤ commitTotal m r) (h2 : commitTotal m r ≤ maxT) :
    0 ≤ (encodeMetric m allLangs minT maxT prev r).1 ∧
    (encodeMetric m allLangs minT maxT prev r).1 ≤ 1 := by
  rw [encodeMetric]
  dsimp only
  split_ifs with hlt
  · have hpos : (0 : ℚ) < (maxT : ℚ) - minT := by
      have := (Nat.cast_lt (α := ℚ)).mpr hlt
      linarith
    have hnum0 : (0 : ℚ) ≤ (commitTotal m r : ℚ) - minT := by
      have := (Nat.cast_le (α := ℚ)).mpr h1
      linarith
    have hnum1 : (commitTotal m r : ℚ) - minT ≤ (maxT : ℚ) - minT := by
      have := (Nat.cast_le (α := ℚ)).mpr h2
      linarith
    constructor
    · exact round2_nonneg _ (div_nonneg hnum0 (le_of_lt hpos))
    · exact round2_le_one _ ((div_le_one hpos).mpr hnum1)
  · norm_num

/-- C4 amended: for every frame of `computeAudioData` and every metric,
the master intensity lies in `[0, 1]`, every stored voice gain lies in
`[0, 1]` (a voice whose positive unrounded gain is below `0.005` is
stored with gain `0.00`, so `0` is attainable), and every stored
detune lies in `[-25, 25]`. -/
theorem audio_bounds (rs : List CommitRecord) (allLangs : List String)
    (f : Frame) (hf : f ∈ computeAudioData rs allLangs) (m : Metric) :
    0 ≤ (f.forMetric m).1 ∧ (f.forMetric m).1 ≤ 1 ∧
    ∀ v ∈ (f.forMetric m).2,
      0 ≤ v.2.1 ∧ v.2.1 ≤ 1 ∧ -25 ≤ v.2.2 ∧ v.2.2 ≤ 25 := by
  rw [computeAudioData] at hf
  by_cases he : rs.isEmpty
  · rw [if_pos he] at hf
    cases hf
  · rw [if_neg he] at hf
    obtain ⟨prev, r, hr, rfl⟩ := framesGo_mem allLangs rs none rs f hf
    rw [mkFrame_forMetric]
    obtain ⟨hi0, hi1⟩ := encodeMetric_intensity_bounds m allLangs
      (minTotal m rs) (maxTotal m rs) prev r (minTotal_le m hr) (le_maxTotal m hr)
    refine ⟨hi0, hi1, ?_⟩
    intro v hv
    rw [encodeMetric] at hv
    dsimp only at hv
    rw [encodeVoices] at hv
    obtain ⟨p, _, hp⟩ := List.mem_filterMap.mp hv
    exact voiceOf_bounds m (commitTotal m r) prev r p v hp
      (langValue_le_commitTotal m r p.2)

/-- Witness for C4: the single-commit, single-language session. -/
theorem audio_bounds_witness :
    mkFrame ["A"] [recW] none recW ∈ computeAudioData [recW] ["A"] ∧
    (0 ≤ ((mkFrame ["A"] [recW] none recW).forMetric .lines).1 ∧
     ((mkFrame ["A"] [recW] none recW).forMetric .lines).1 ≤ 1 ∧
     ∀ v ∈ ((mkFrame ["A"] [recW] none recW).forMetric .lines).2,
       0 ≤ v.2.1 ∧ v.2.1 ≤ 1 ∧ -25 ≤ v.2.2 ∧ v.2.2 ≤ 25) :=
  have hmem : mkFrame ["A"] [recW] none recW ∈ computeAudioData [recW] ["A"] := by
    simp [computeAudioData, framesGo]
  ⟨hmem, audio_bounds [recW] ["A"] _ hmem .lines⟩

/-- C4 counterexample: with languages `B: 999` and `A: 1`, `A`'s voice
has unrounded gain `0.001 ≠ 0`, so it is stored — but its gain rounds
to `0.00`: a voice with stored gain `0` appears in the frame,
contradicting "every stored voice gain lies in `(0,1]`". -/
theorem zero_gain_voice_counterexample :
    (computeAudioData [recAB] ["B", "A"]).map
        (fun f => (f.forMetric .lines).2) =
      [[(0, 1, 25/2), (1, 0, 25/2)]] ∧ ¬((0 : ℚ) < 0) := by
  have eBA : ("B" == "A") = false := by decide
  constructor
  · norm_num [computeAudioData, framesGo, mkFrame, Frame.forMetric,
      encodeMetric, encodeVoices, voiceOf, langValue, prevLangValue,
      lookupLang, commitTotal, metricValue, minTotal, maxTotal, round2,
      round1, AUDIO_MAX_VOICES, AUDIO_DETUNE_MAX, recAB, recordOfLangs,
      statsOfCode, List.find?, List.enum, List.enumFrom, List.filterMap,
      eBA]
  · norm_num

/-! ### Gain conservation -/

/-- Rounding to two decimals fixes `0`. -/
theorem round2_zero : round2 0 = 0 := by norm_num [round2]

/-- Rounding to two decimals moves a value by at most `0.005`. -/
theorem abs_round2_sub_le (q : ℚ) : |round2 q - q| ≤ 1/200 := by
  rw [round2, abs_le]
  have h1 : ((⌊q * 100 + 1/2⌋ : ℤ) : ℚ) ≤ q * 100 + 1/2 := Int.floor_le _
  have h2 : q * 100 + 1/2 - 1 < ((⌊q * 100 + 1/2⌋ : ℤ) : ℚ) :=
    Int.sub_one_lt_floor _
  constructor <;> linarith

/-- Sums over a list distribute over pointwise addition. -/
theorem sum_map_add_nat (L : List String) (f g : String → ℕ) :
    (L.map (fun x => f x + g x)).sum = (L.map f).sum + (L.map g).sum := by
  induction L with
  | nil => rfl
  | cons x L ih =>
    simp only [List.map_cons, List.sum_cons, ih]
    omega

/-- Sums over a list distribute over pointwise subtraction. -/
theorem sum_map_sub (L : List String) (f g : String → ℚ) :
    (L.map (fun x => f x - g x)).sum = (L.map f).sum - (L.map g).sum := by
  induction L with
  | nil => simp
  | cons x L ih =>
    simp only [List.map_cons, List.sum_cons, ih]
    ring

/-- Summing an indicator of one name over a duplicate-free list yields
the value iff the name occurs. -/
theorem sum_map_ite_eq (L : List String) (a : String) (c : ℕ)
    (h : L.Nodup) :
    (L.map (fun l => if l = a then c else 0)).sum =
      if a ∈ L then c else 0 := by
  induction L with
  | nil => simp
  | cons x L ih =>
    rw [List.map_cons, List.sum_cons, ih (List.nodup_cons.mp h).2]
    by_cases hxa : x = a
    · subst hxa
      rw [if_pos rfl, if_pos (List.mem_cons_self x L),
        if_neg (List.nodup_cons.mp h).1]
      exact Nat.add_zero c
    · rw [if_neg hxa, Nat.zero_add]
      have hiff : (a ∈ x :: L) ↔ (a ∈ L) := by
        rw [List.mem_cons]
        exact or_iff_right (fun h' => hxa h'.symm)
      by_cases ha : a ∈ L
      · rw [if_pos ha, if_pos (hiff.mpr ha)]
      · rw [if_neg ha, if_neg (fun hm => ha (hiff.mp hm))]

/-- Prepending one entry to a language map adds its value exactly at
its own key (provided the key is fresh). -/
theorem lookup_cons_value (q : String × LangStats)
    (qs : List (String × LangStats)) (g : LangStats → ℕ)
    (hq : q.1 ∉ qs.map Prod.fst) (l : String) :
    ((lookupLang (q :: qs) l).map g).getD 0 =
      ((lookupLang qs l).map g).getD 0 + (if l = q.1 then g q.2 else 0) := by
  by_cases hl : l = q.1
  · subst hl
    have hn : qs.find? (fun p => p.1 == q.1) = none :=
      List.find?_eq_none.mpr (fun x hx => by
        simp only [beq_iff_eq]
        exact fun he => hq (he ▸ List.mem_map_of_mem Prod.fst hx))
    simp [lookupLang, List.find?_cons, hn]
  · have hb : (q.1 == l) = false := by
      simp only [beq_eq_false_iff_ne, ne_eq]
      exact fun he => hl he.symm
    simp [lookupLang, List.find?_cons, hb, hl]

/-- Summing the looked-up values of a metric over a duplicate-free name
list that covers every nonzero entry reproduces the metric's total over
the language map (keys assumed unique, as in a JS object). -/
theorem sum_lookup_map (L : List String)
    (langs : List (String × LangStats)) (g : LangStats → ℕ)
    (hL : L.Nodup) (hk : (langs.map Prod.fst).Nodup)
    (hc : ∀ p ∈ langs, g p.2 ≠ 0 → p.1 ∈ L) :
    (L.map (fun l => ((lookupLang langs l).map g).getD 0)).sum =
      (langs.map (fun p => g p.2)).sum := by
  induction langs with
  | nil => simp [lookupLang]
  | cons q qs ih =>
    rw [List.map_cons] at hk
    have hq1 : q.1 ∉ qs.map Prod.fst := (List.nodup_cons.mp hk).1
    have hqs : (qs.map Prod.fst).Nodup := (List.nodup_cons.mp hk).2
    calc (L.map (fun l => ((lookupLang (q :: qs) l).map g).getD 0)).sum
        = (L.map (fun l => ((lookupLang qs l).map g).getD 0 +
            (if l = q.1 then g q.2 else 0))).sum := by
          exact congrArg List.sum
            (List.map_congr_left (fun l _ => lookup_cons_value q qs g hq1 l))
      _ = (L.map (fun l => ((lookupLang qs l).map g).getD 0)).sum +
            (L.map (fun l => if l = q.1 then g q.2 else 0)).sum :=
          sum_map_add_nat L _ _
      _ = (qs.map (fun p => g p.2)).sum + (if q.1 ∈ L then g q.2 else 0) := by
          rw [ih hqs (fun p hp hg => hc p (List.mem_cons_of_mem q hp) hg),
            sum_map_ite_eq L q.1 (g q.2) hL]
      _ = ((q :: qs).map (fun p => g p.2)).sum := by
          rw [List.map_cons, List.sum_cons]
          by_cases hz : g q.2 = 0
          · rw [hz]
            simp
          · rw [if_pos (hc q (List.mem_cons_self q qs) hz)]
            omega

/-- The stored gains of the voice loop sum to the rounded per-language
gains over all processed slots: a skipped slot has raw gain `0`, whose
rounding is also `0`. -/
theorem voices_gain_sum (m : Metric) (total : ℕ)
    (prev : Option CommitRecord) (r : CommitRecord) (htotal : 0 < total) :
    ∀ (pairs : List (ℕ × String)),
      ((pairs.filterMap (voiceOf m total prev r)).map (fun v => v.2.1)).sum =
        (pairs.map (fun p =>
          round2 ((langValue m r p.2 : ℚ) / total))).sum
  | [] => rfl
  | p :: ps => by
    cases hv : voiceOf m total prev r p with
    | none =>
      rw [List.filterMap_cons_none hv]
      simp only [voiceOf] at hv
      rw [if_pos htotal] at hv
      by_cases hg : ((langValue m r p.2 : ℚ) / (total : ℚ)) = 0
      · rw [List.map_cons, List.sum_cons, hg, round2_zero, zero_add]
        exact voices_gain_sum m total prev r htotal ps
      · rw [if_neg hg] at hv
        exact absurd hv (by simp)
    | some v =>
      rw [List.filterMap_cons_some hv]
      simp only [voiceOf] at hv
      rw [if_pos htotal] at hv
      by_cases hg : ((langValue m r p.2 : ℚ) / (total : ℚ)) = 0
      · rw [if_pos hg] at hv
        exact absurd hv (by simp)
      · rw [if_neg hg] at hv
        cases Option.some_inj.mp hv
        rw [List.map_cons, List.sum_cons, List.map_cons, List.sum_cons,
          voices_gain_sum m total prev r htotal ps]

/-- Summing a function of the entry over an enumerated list is summing
it over the list. -/
theorem sum_map_enum_snd (L : List String) (f : String → ℚ) :
    (L.enum.map (fun p => f p.2)).sum = (L.map f).sum := by
  rw [show (fun p : ℕ × String => f p.2) = f ∘ Prod.snd from rfl,
    ← List.map_map, List.enum_map_snd]

/-- Casting a sum of naturals to `ℚ` termwise. -/
theorem natCast_sum_map (L : List String) (f : String → ℕ) :
    (L.map (fun l => (f l : ℚ))).sum = ((L.map f).sum : ℚ) := by
  induction L with
  | nil => simp
  | cons x L ih => simp [ih]

/-- A sum of terms each bounded in absolute value is bounded by the
length times the bound. -/
theorem abs_sum_le_length_mul (l : List ℚ) (c : ℚ)
    (h : ∀ x ∈ l, |x| ≤ c) : |l.sum| ≤ l.length * c := by
  induction l with
  | nil => simp
  | cons a t ih =>
    have h1 : |a + t.sum| ≤ |a| + |t.sum| := abs_add _ _
    have h2 := ih (fun x hx => h x (List.mem_cons_of_mem a hx))
    have h3 := h a (List.mem_cons_self a t)
    simp only [List.sum_cons, List.length_cons]
    push_cast
    calc |a + t.sum| ≤ |a| + |t.sum| := h1
      _ ≤ c + t.length * c := by gcongr
      _ = (t.length + 1) * c := by ring

/-- C3 amended: for a frame and metric with per-commit total `> 0`,
when every language of that commit carrying a nonzero value of the
metric sits among the first `min(16, |allLanguages|)` ranked names (the
voice cap) and names are duplicate-free, the stored voice gains sum to
`1.0` within `0.005` per stored voice — at most `0.08` in total (the
`0.02` tolerance of the claim is too tight, and past the 16-voice cap
no tolerance holds at all).  Every frame of `computeAudioData` is such
an `mkFrame` of a session commit. -/
theorem gain_conservation (rs : List CommitRecord) (allLangs : List String)
    (m : Metric) (prev : Option CommitRecord) (r : CommitRecord)
    (hnodup : (allLangs.take AUDIO_MAX_VOICES).Nodup)
    (hkeys : (r.languages.map Prod.fst).Nodup)
    (hcover : ∀ p ∈ r.languages, metricValue m p.2 ≠ 0 →
      p.1 ∈ allLangs.take AUDIO_MAX_VOICES)
    (htotal : 0 < commitTotal m r) :
    (∀ f ∈ computeAudioData rs allLangs,
      ∃ prev' r', r' ∈ rs ∧ f = mkFrame allLangs rs prev' r') ∧
    |((((mkFrame allLangs rs prev r).forMetric m).2).map
        (fun v => v.2.1)).sum - 1| ≤ 2/25 := by
  constructor
  · intro f hf
    rw [computeAudioData] at hf
    by_cases he : rs.isEmpty
    · rw [if_pos he] at hf
      cases hf
    · rw [if_neg he] at hf
      exact framesGo_mem allLangs rs none rs f hf
  · rw [mkFrame_forMetric, encodeMetric]
    dsimp only
    rw [encodeVoices,
      voices_gain_sum m (commitTotal m r) prev r htotal
        ((allLangs.take AUDIO_MAX_VOICES).enum),
      sum_map_enum_snd (allLangs.take AUDIO_MAX_VOICES)
        (fun l => round2 ((langValue m r l : ℚ) / (commitTotal m r : ℚ)))]
    set L := allLangs.take AUDIO_MAX_VOICES with hLdef
    have hraw : (L.map
        (fun l => ((langValue m r l : ℚ) / (commitTotal m r : ℚ)))).sum = 1 := by
      calc (L.map (fun l =>
              ((langValue m r l : ℚ) / (commitTotal m r : ℚ)))).sum
          = (L.map (fun l =>
              (langValue m r l : ℚ) * (commitTotal m r : ℚ)⁻¹)).sum := by
            simp only [div_eq_mul_inv]
        _ = (L.map (fun l => (langValue m r l : ℚ))).sum *
              (commitTotal m r : ℚ)⁻¹ :=
            List.sum_map_mul_right L _ _
        _ = ((L.map (fun l => langValue m r l)).sum : ℚ) *
              (commitTotal m r : ℚ)⁻¹ := by
            rw [natCast_sum_map]
        _ = (commitTotal m r : ℚ) * (commitTotal m r : ℚ)⁻¹ := by
            have hs : (L.map (fun l => langValue m r l)).sum =
                commitTotal m r := by
              simp only [langValue]
              exact sum_lookup_map L r.languages (metricValue m)
                hnodup hkeys hcover
            rw [hs]
        _ = 1 := mul_inv_cancel₀ (by exact_mod_cast htotal.ne')
    have hlen : L.length ≤ 16 := by
      rw [hLdef]
      exact le_trans (List.length_take_le _ _) (le_of_eq rfl)
    calc |(L.map (fun l =>
            round2 ((langValue m r l : ℚ) / (commitTotal m r : ℚ)))).sum - 1|
        = |(L.map (fun l =>
            round2 ((langValue m r l : ℚ) / (commitTotal m r : ℚ)) -
              ((langValue m r l : ℚ) / (commitTotal m r : ℚ)))).sum| := by
          rw [sum_map_sub, hraw]
      _ ≤ (L.map (fun l =>
            round2 ((langValue m r l : ℚ) / (commitTotal m r : ℚ)) -
              ((langValue m r l : ℚ) / (commitTotal m r : ℚ)))).length *
            (1/200) := by
          apply abs_sum_le_length_mul
          intro x hx
          obtain ⟨l, -, rfl⟩ := List.mem_map.mp hx
          exact abs_round2_sub_le _
      _ ≤ 16 * (1/200) := by
          rw [List.length_map]
          have : (L.length : ℚ) ≤ 16 := by exact_mod_cast hlen
          nlinarith
      _ = 2/25 := by norm_num

/-- Witness for C3's amended bound: a single commit with one language
of five code lines. -/
theorem gain_conservation_witness :
    ((["A"] : List String).take AUDIO_MAX_VOICES).Nodup ∧
    (recW.languages.map Prod.fst).Nodup ∧
    (∀ p ∈ recW.languages, metricValue .lines p.2 ≠ 0 →
      p.1 ∈ (["A"] : List String).take AUDIO_MAX_VOICES) ∧
    0 < commitTotal .lines recW ∧
    ((∀ f ∈ computeAudioData [recW] ["A"],
      ∃ prev' r', r' ∈ [recW] ∧ f = mkFrame ["A"] [recW] prev' r') ∧
    |((((mkFrame ["A"] [recW] none recW).forMetric .lines).2).map
        (fun v => v.2.1)).sum - 1| ≤ 2/25) :=
  ⟨by decide, by decide, by decide, by decide,
    gain_conservation [recW] ["A"] .lines none recW (by decide) (by decide)
      (by decide) (by decide)⟩

/-- C3 counterexample.  With eight equal languages every stored gain is
`round2 (1/8) = 0.13`, so the frame's gains sum to `1.04`, outside the
claimed `0.02` tolerance although the total is positive.  With twenty
equal languages only the first 16 get voices and the sum is `0.80`,
outside any rounding-sized tolerance. -/
theorem gain_tolerance_counterexample :
    (computeAudioData [rec8] langs8).map
        (fun f => ((f.forMetric .lines).2.map (fun v => v.2.1)).sum) =
      [26/25] ∧
    0 < commitTotal .lines rec8 ∧
    ¬(|26/25 - (1 : ℚ)| ≤ 1/50) ∧
    (computeAudioData [rec20] langs20).map
        (fun f => ((f.forMetric .lines).2.map (fun v => v.2.1)).sum) =
      [4/5] ∧
    0 < commitTotal .lines rec20 ∧
    ¬(|4/5 - (1 : ℚ)| ≤ 1/50) := by
  have t8 : commitTotal .lines rec8 = 8 := by decide
  have t20 : commitTotal .lines rec20 = 100 := by decide
  have e8 : (langs8.take AUDIO_MAX_VOICES).enum =
      [(0, "A"), (1, "B"), (2, "C"), (3, "D"), (4, "E"), (5, "F"),
       (6, "G"), (7, "H")] := by decide
  have e20 : (langs20.take AUDIO_MAX_VOICES).enum =
      [(0, "A"), (1, "B"), (2, "C"), (3, "D"), (4, "E"), (5, "F"),
       (6, "G"), (7, "H"), (8, "I"), (9, "J"), (10, "K"), (11, "L"),
       (12, "M"), (13, "N"), (14, "O"), (15, "P")] := by decide
  have l8A : lookupLang rec8.languages "A" = some (statsOfCode 1 1) := by decide
  have l8B : lookupLang rec8.languages "B" = some (statsOfCode 1 1) := by decide
  have l8C : lookupLang rec8.languages "C" = some (statsOfCode 1 1) := by decide
  have l8D : lookupLang rec8.languages "D" = some (statsOfCode 1 1) := by decide
  have l8E : lookupLang rec8.languages "E" = some (statsOfCode 1 1) := by decide
  have l8F : lookupLang rec8.languages "F" = some (statsOfCode 1 1) := by decide
  have l8G : lookupLang rec8.languages "G" = some (statsOfCode 1 1) := by decide
  have l8H : lookupLang rec8.languages "H" = some (statsOfCode 1 1) := by decide
  have l20A : lookupLang rec20.languages "A" = some (statsOfCode 1 5) := by decide
  have l20B : lookupLang rec20.languages "B" = some (statsOfCode 1 5) := by decide
  have l20C : lookupLang rec20.languages "C" = some (statsOfCode 1 5) := by decide
  have l20D : lookupLang rec20.languages "D" = some (statsOfCode 1 5) := by decide
  have l20E : lookupLang rec20.languages "E" = some (statsOfCode 1 5) := by decide
  have l20F : lookupLang rec20.languages "F" = some (statsOfCode 1 5) := by decide
  have l20G : lookupLang rec20.languages "G" = some (statsOfCode 1 5) := by decide
  have l20H : lookupLang rec20.languages "H" = some (statsOfCode 1 5) := by decide
  have l20I : lookupLang rec20.languages "I" = some (statsOfCode 1 5) := by decide
  have l20J : lookupLang rec20.languages "J" = some (statsOfCode 1 5) := by decide
  have l20K : lookupLang rec20.languages "K" = some (statsOfCode 1 5) := by decide
  have l20L : lookupLang rec20.languages "L" = some (statsOfCode 1 5) := by decide
  have l20M : lookupLang rec20.languages "M" = some (statsOfCode 1 5) := by decide
  have l20N : lookupLang rec20.languages "N" = some (statsOfCode 1 5) := by decide
  have l20O : lookupLang rec20.languages "O" = some (statsOfCode 1 5) := by decide
  have l20P : lookupLang rec20.languages "P" = some (statsOfCode 1 5) := by decide
  have a1 : ¬(|26/25 - (1 : ℚ)| ≤ 1/50) := by
    rw [show (26 : ℚ)/25 - 1 = 1/25 by norm_num,
      abs_of_pos (by norm_num : (0:ℚ) < 1/25)]
    norm_num
  have a2 : ¬(|4/5 - (1 : ℚ)| ≤ 1/50) := by
    rw [show (4 : ℚ)/5 - 1 = -(1/5) by norm_num, abs_neg,
      abs_of_pos (by norm_num : (0:ℚ) < 1/5)]
    norm_num
  refine ⟨?_, by decide, a1, ?_, by decide, a2⟩
  · norm_num [computeAudioData, framesGo, mkFrame, Frame.forMetric,
      encodeMetric, encodeVoices, voiceOf, langValue, prevLangValue,
      List.filterMap, minTotal, maxTotal, round2, round1, AUDIO_DETUNE_MAX, t8, e8,
      l8A, l8B, l8C, l8D, l8E, l8F, l8G, l8H, metricValue, statsOfCode]
  · norm_num [computeAudioData, framesGo, mkFrame, Frame.forMetric,
      encodeMetric, encodeVoices, voiceOf, langValue, prevLangValue,
      List.filterMap, minTotal, maxTotal, round2, round1, AUDIO_DETUNE_MAX, t20, e20,
      l20A, l20B, l20C, l20D, l20E, l20F, l20G, l20H, l20I, l20J, l20K, l20L, l20M, l20N, l20O, l20P, metricValue, statsOfCode]

end CodeEvolution
